import Mathlib

set_option maxHeartbeats 1000000

/-
Verification development for the hierarchical task-list core of the repository:
the reducer and optimistic flows of src/hooks/useTaskManager.js, the two drag-end
handlers (src/components/TaskContainer.js and the unnamed part_000 variant), the
validation helpers of part_020 (taskStateValidation) and the page-level reorder
handler of part_016. JavaScript strings are Lean String, numbers are Int where
the code does arithmetic on them, undefined-able fields are Option, and JS
truthiness of optional string fields is made explicit via the truthy helper.
The createdAt timestamp is omitted everywhere: no modelled logic reads it and
the specification compares collections ignoring timestamps.
-/

namespace ParadiseFE

/-- Task categories: the source restricts categories to the strings "personal" and
"work" (createSafeTask in useTaskManager.js, validateCategory in part_020). -/
inductive Cat where
  | personal
  | work
deriving DecidableEq

/-- JS truthiness of a string-or-undefined value: undefined and the empty string are
falsy, every other string is truthy. -/
def truthy : Option String → Bool
  | none => false
  | some s => s != ""

/-- JS String.prototype.trim, written over the character list so that the kernel can
evaluate it on concrete inputs. -/
def jsTrim (s : String) : String :=
  String.mk (((s.data.dropWhile Char.isWhitespace).reverse.dropWhile Char.isWhitespace).reverse)

/-- The task entity (spec section 3; the field set produced by createSafeTask in
useTaskManager.js). -/
structure Task where
  id : String
  description : String
  category : Cat
  completed : Bool
  order : Int
  parentId : Option String
deriving DecidableEq

/-- createSafeTask (useTaskManager.js lines 9-39) on already-typed input. The category,
completed and order repairs collapse because the Task type already guarantees a valid
category, a boolean flag and a finite order. The crypto.randomUUID() fallback for an
invalid id is represented by the fallbackId argument; the dispatching code always
supplies the freshly generated uuid there. -/
def createSafeTask (fallbackId : String) (t : Task) : Task :=
  { id := if jsTrim t.id != "" then t.id else fallbackId
    description := if jsTrim t.description != "" then jsTrim t.description else "Untitled Task"
    category := t.category
    completed := t.completed
    order := t.order
    parentId := t.parentId }

/-- The two per-category task collections (state.tasks of useTaskManager.js). -/
structure TasksByCat where
  personal : List Task
  work : List Task
deriving DecidableEq

/-- state.tasks[category] -/
def TasksByCat.get : TasksByCat → Cat → List Task
  | s, .personal => s.personal
  | s, .work => s.work

/-- { ...state.tasks, [category]: l } -/
def TasksByCat.set : TasksByCat → Cat → List Task → TasksByCat
  | s, .personal, l => { s with personal := l }
  | s, .work, l => { s with work := l }

/-- The reducer state of useTaskManager.js (lines 203-209). -/
structure ManagerState where
  tasks : TasksByCat
  category : Cat
  newTaskId : Option String
  isLoading : Bool
  error : Option String
deriving DecidableEq

/-- The reducer actions of useTaskManager.js. SET_TASKS is not modelled: its payload is
the untyped initial fetch result run through sanitizeInitialData, and no claim concerns
the initial load. The invalid-category branch of SET_CATEGORY collapses because Cat has
only the two valid values. -/
inductive Action where
  | setLoading (b : Bool)
  | setError (msg : String)
  | clearError
  | rollback (tasks : TasksByCat) (errMsg : String)
  | setCategory (c : Cat)
  | addTask (description : String) (parentId : Option String) (id : String)
  | completeTask (id : String)
  | reorderTasks (payload : List Task)
  | renameTask (id : String) (description : String)

/-- The sibling-group filter of ADD_TASK (useTaskManager.js lines 102-104): a truthy
parentId selects that parent's children, otherwise the root group. -/
def tasksInLevelOf (currentTasks : List Task) (parentId : Option String) : List Task :=
  if truthy parentId then currentTasks.filter (fun t => t.parentId == parentId)
  else currentTasks.filter (fun t => !truthy t.parentId)

/-- Math.max over the order fields, 0 for an empty group (ADD_TASK lines 106-109). -/
def maxOrderOf (tasksInLevel : List Task) : Int :=
  match tasksInLevel.map Task.order with
  | [] => 0
  | o :: os => os.foldl max o

/-- Per-character lower casing (JS String.prototype.toLowerCase on the ASCII range). -/
def jsToLower (s : String) : String := String.mk (s.data.map Char.toLower)

/-- A word character of the JS regex class \w. -/
def isWordChar (c : Char) : Bool := c.isAlphanum || c == '_'

/-- The scan of description.replace applied after toLowerCase in COMPLETE_TASK
(useTaskManager.js lines 152-154): upper-case every word character that follows a
non-word position. -/
def titleCaseGo : Bool → List Char → List Char
  | _, [] => []
  | prevWord, c :: cs =>
    (if isWordChar c && !prevWord then c.toUpper else c) :: titleCaseGo (isWordChar c) cs

/-- description.toLowerCase().replace with word starts upper-cased, the section-to-task
conversion of COMPLETE_TASK. -/
def jsTitleCase (s : String) : String := String.mk (titleCaseGo false (jsToLower s).data)

/-- The core reducer taskReducer (useTaskManager.js lines 63-196). -/
def taskReducer (state : ManagerState) (action : Action) : ManagerState :=
  let category := state.category
  let currentTasks := state.tasks.get category
  match action with
  | .setLoading b => { state with isLoading := b }
  | .setError msg => { state with error := some msg }
  | .clearError => { state with error := none }
  | .rollback tasks errMsg =>
      { state with tasks := tasks
                   error := if errMsg != "" then some errMsg else none }
  | .setCategory c => { state with category := c }
  | .addTask description parentId id =>
      let tasksInLevel := tasksInLevelOf currentTasks parentId
      let maxOrder := maxOrderOf tasksInLevel
      let newTask := createSafeTask id
        { id := id, description := description, category := category,
          completed := false, order := maxOrder + 1, parentId := parentId }
      { state with
          newTaskId := some newTask.id
          tasks := state.tasks.set category (currentTasks ++ [newTask]) }
  | .completeTask taskId =>
      match currentTasks.find? (fun t => t.id == taskId) with
      | none => state
      | some taskToDelete =>
        let updatedList := currentTasks.filter
          (fun t => t.id != taskId && t.parentId != some taskId)
        let updatedList :=
          if truthy taskToDelete.parentId then
            if !(updatedList.any (fun t => t.parentId == taskToDelete.parentId)) then
              updatedList.map (fun t =>
                if some t.id == taskToDelete.parentId then
                  { t with description := jsTitleCase t.description }
                else t)
            else updatedList
          else updatedList
        { state with newTaskId := none
                     tasks := state.tasks.set category updatedList }
  | .reorderTasks payload =>
      { state with tasks := state.tasks.set category payload }
  | .renameTask id description =>
      if jsTrim description == "" then state
      else
        { state with
            newTaskId := none
            tasks := state.tasks.set category (currentTasks.map (fun t =>
              if t.id == id then { t with description := description } else t)) }

/-- Outcome of the fire-and-forget remote call of one intent. -/
inductive SyncResult where
  | ok
  | err (msg : String)

/-- The four user intents dispatched through the manager callbacks of useTaskManager.js
(addTask, completeTask, reorderTasks, renameTask). freshId stands for the
crypto.randomUUID() value generated inside addTask before dispatch. -/
inductive Intent where
  | add (description : String) (parentId : Option String) (freshId : String)
  | complete (id : String)
  | reorder (tasks : List Task)
  | rename (id : String) (description : String)

/-- The optimistic dispatch belonging to each intent. -/
def Intent.toAction : Intent → Action
  | .add d p f => .addTask d p f
  | .complete i => .completeTask i
  | .reorder l => .reorderTasks l
  | .rename i d => .renameTask i d

/-- One manager callback run to completion under a given sync outcome (useTaskManager.js
lines 262-406): snapshot the collections, dispatch the optimistic action, then - when a
user id is set - either succeed with no further dispatch or dispatch ROLLBACK carrying
the snapshot and the error message. The model serializes the callback with no other
intent in between, the single-writer regime of spec section 5. -/
def applyIntentFlow (userId : Option String) (state : ManagerState)
    (intent : Intent) (sync : SyncResult) : ManagerState :=
  let previousTasks := state.tasks
  let optimistic := taskReducer state intent.toAction
  if !truthy userId then optimistic
  else
    match sync with
    | .ok => optimistic
    | .err msg => taskReducer optimistic (.rollback previousTasks msg)

/-- One remote order update issued by reorderTasks: TaskService.updateTodoTask(userId,
task.id, { order: index + 1 }) (useTaskManager.js lines 356-363). Only the order field
is ever sent. -/
structure UpdateReq where
  taskId : String
  newOrder : Int
deriving DecidableEq

/-- The collection of remote updates issued by reorderTasks for a committed list: one
request for every task whose stored order differs from its 1-based position in the
flat list. -/
def reorderSyncRequests (tasks : List Task) : List UpdateReq :=
  tasks.enum.filterMap (fun p =>
    if p.2.order != (p.1 : Int) + 1 then some ⟨p.2.id, (p.1 : Int) + 1⟩ else none)

/-- validateTask (part_020 lines 11-51) on typed tasks: the field-presence, category and
completed checks collapse under the Task type, leaving the id and description trim
checks and the non-negative order check; the createdAt check is not modelled. -/
def validateTask (t : Task) : Bool :=
  jsTrim t.id != "" && jsTrim t.description != "" && decide (0 ≤ t.order)

/-- The scanning loop of validateTaskArray (part_020 lines 58-94): the first component
is isValid, the second validTasks; the errors list is represented by isValid alone. An
invalid or duplicate-id task clears isValid and is skipped, every other task is pushed
and its id recorded. -/
def vtaGo (seen : List String) : List Task → Bool × List Task
  | [] => (true, [])
  | t :: rest =>
    if !validateTask t then (false, (vtaGo seen rest).2)
    else if t.id ∈ seen then (false, (vtaGo seen rest).2)
    else
      let r := vtaGo (t.id :: seen) rest
      (r.1, t :: r.2)

/-- The result record of validateTaskArray. -/
structure ArrayValidation where
  isValid : Bool
  validTasks : List Task

/-- validateTaskArray (part_020 lines 58-94); the Array.isArray guard collapses on a
typed list. -/
def validateTaskArray (ts : List Task) : ArrayValidation :=
  ⟨(vtaGo [] ts).1, (vtaGo [] ts).2⟩

/-- handleTaskReorder (part_016 lines 299-345) as a function from the stored list of
the active category and the proposed replacement to the list stored afterwards. The
Array.isArray guard collapses on typed input, and the safe state updater commits the
accepted list verbatim: its validateTaskState finds neither the personalTasks nor the
workTasks key on a plain list value and reports it valid. -/
def handleTaskReorder (activeCategory : Cat) (stored reordered : List Task) : List Task :=
  if !(validateTaskArray reordered).isValid then stored
  else if !(reordered.filter (fun t => t.category != activeCategory)).isEmpty then stored
  else
    let taskIds := reordered.map Task.id
    let orphaned := reordered.filter (fun t =>
      truthy t.parentId && !(taskIds.contains (t.parentId.getD "")))
    if !orphaned.isEmpty then stored else reordered

/-- Modelled from the spec (section 3 invariant 3, for comparison with the code): the
order values of the sibling group designated by p are exactly the dense set 1..N. -/
def denseGroup (ts : List Task) (p : Option String) : Bool :=
  let g := ts.filter (fun t => t.parentId == p)
  decide ((g.map Task.order).Perm ((List.range g.length).map (fun k : Nat => (k : Int) + 1)))

/-- Modelled from the spec: density of every sibling group occurring in the list, the
root group included. -/
def denseAll (ts : List Task) : Bool :=
  (none :: ts.map Task.parentId).all (fun p => denseGroup ts p)

/-- Modelled from the spec (section 3 invariants, the structural validation that claim
C2 ascribes to the reorder intent): unique ids, every parentId resolving to an existing
root task of the same category (which also bounds the nesting depth by one and gives
section exclusivity), and dense per-sibling-group order values. -/
def specStructuralInvariants (ts : List Task) : Bool :=
  decide ((ts.map Task.id).Nodup)
  && ts.all (fun t => match t.parentId with
      | none => true
      | some p => ts.any (fun r => r.id == p && r.parentId == none && r.category == t.category))
  && denseAll ts

/-- Does the character list (first argument) start with the pattern (second argument)? -/
def seqStartsWith : List Char → List Char → Bool
  | _, [] => true
  | [], _ :: _ => false
  | a :: as, b :: bs => a == b && seqStartsWith as bs

/-- Does the character list contain the pattern as a contiguous run (JS
String.prototype.includes)? -/
def containsSeq (pat : List Char) : List Char → Bool
  | [] => pat.isEmpty
  | a :: as => seqStartsWith (a :: as) pat || containsSeq pat as

/-- JS String.prototype.replace with a string pattern removes the first occurrence
only; the replacement here is the empty string. -/
def stripFirstSeq (pat : List Char) : List Char → List Char
  | [] => []
  | a :: as =>
    if seqStartsWith (a :: as) pat then (a :: as).drop pat.length
    else a :: stripFirstSeq pat as

/-- The dropzone id marker. -/
def dzMark : List Char := "dropzone-".data

/-- over.id.toString().includes("dropzone-") -/
def hasDropzoneMark (s : String) : Bool := containsSeq dzMark s.data

/-- over.id.toString().replace("dropzone-", "") -/
def stripDropzoneMark (s : String) : String := String.mk (stripFirstSeq dzMark s.data)

/-- Array.prototype.splice index normalisation: a negative index counts from the end,
and every index is clamped into the array. -/
def spliceIdx (len : Nat) (i : Int) : Nat :=
  if i < 0 then ((len : Int) + i).toNat else min i.toNat len

/-- arrayMove of dnd-kit: newArray.splice(to < 0 ? newArray.length + to : to, 0,
newArray.splice(from, 1)[0]). The first splice argument is evaluated before the inner
removal runs, so a negative target counts from the pre-removal length. When from is out
of range the JS code inserts undefined, a value the Task list cannot hold; the model
returns the list unchanged there and no theorem exercises that branch. -/
def arrayMove (l : List Task) (fro dest : Int) : List Task :=
  let insertPos : Int := if dest < 0 then (l.length : Int) + dest else dest
  let fi := spliceIdx l.length fro
  match l[fi]? with
  | none => l
  | some item =>
    let removed := l.take fi ++ l.drop (fi + 1)
    removed.insertIdx (spliceIdx removed.length insertPos) item

/-- JS Array.prototype.findIndex: the first matching index or -1. -/
def findIdxJs (tasks : List Task) (id : String) : Int :=
  match tasks.findIdx? (fun t => t.id == id) with
  | some n => (n : Int)
  | none => -1

/-- targetTask?.parentId || undefined: an absent target or an empty-string parentId
collapses to undefined. -/
def parentOrUndef (t? : Option Task) : Option String :=
  match t? with
  | none => none
  | some t => if truthy t.parentId then t.parentId else none

/-- handleDragEnd of src/components/TaskContainer.js (lines 77-110) as a function of
the rendered list and the gesture; the result is the list passed to onTaskReorder, or
none when the handler returns early. -/
def handleDragEndC (tasks : List Task) (activeId : String) (over : Option String) :
    Option (List Task) :=
  match over with
  | none => none
  | some overId =>
    if activeId == overId then none
    else
      let isNestingAction := hasDropzoneMark overId
      let targetId := if isNestingAction then stripDropzoneMark overId else overId
      let oldIndex := findIdxJs tasks activeId
      let newIndex := findIdxJs tasks targetId
      let updatedTasks := arrayMove tasks oldIndex newIndex
      let targetTask := tasks.find? (fun t => t.id == targetId)
      some (updatedTasks.map (fun task =>
        if task.id == activeId then
          { task with parentId := if isNestingAction then some targetId
                                  else parentOrUndef targetTask }
        else task))

/-- The first position holding the given id (Array.findIndex inside the child sort
comparator of part_000, lines 234-236). -/
def firstIdx (all : List Task) (i : String) : Int :=
  match all.findIdx? (fun t => t.id == i) with
  | some n => (n : Int)
  | none => -1

/-- The child sort comparator of part_000: ascending first-occurrence position. -/
def kidLE (all : List Task) (a b : Task) : Prop :=
  firstIdx all a.id ≤ firstIdx all b.id

instance (all : List Task) : DecidableRel (kidLE all) := fun _ _ => Int.decLe _ _

/-- children.sort((a, b) => aIndex - bIndex) over the filtered children (part_000 lines
230-237). JS Array.prototype.sort is stable and the comparator keys form a total
preorder, which determines the output uniquely; insertionSort realises it. -/
def kidsSorted (all : List Task) (pid : String) : List Task :=
  List.insertionSort (kidLE all) (all.filter (fun c => c.parentId == some pid))

/-- The inner forEach over a root task's children with the processedIds guard (part_000
lines 239-244): the pushed children together with the grown processed set. -/
def addKids : List Task → List String → List Task × List String
  | [], p => ([], p)
  | c :: cs, p =>
    if c.id ∈ p then addKids cs p
    else (c :: (addKids cs (c.id :: p)).1, (addKids cs (c.id :: p)).2)

/-- The outer forEach of the hierarchical rebuild (part_000 lines 223-246): every still
unprocessed root task is pushed, followed by its children. -/
def rebuildAux (all : List Task) : List Task → List String → List Task
  | [], _ => []
  | t :: rest, p =>
    if truthy t.parentId = false ∧ t.id ∉ p then
      t :: ((addKids (kidsSorted all t.id) (t.id :: p)).1
        ++ rebuildAux all rest (addKids (kidsSorted all t.id) (t.id :: p)).2)
    else rebuildAux all rest p

/-- The hierarchical rebuild of part_000 (lines 218-246). -/
def rebuildHier (all : List Task) : List Task := rebuildAux all all []

/-- The sibling index used by the order reassignment (part_000 lines 253-256). -/
def sibIdx (finalTasks : List Task) (t : Task) : Nat :=
  (finalTasks.filter (fun s => s.parentId == t.parentId)).findIdx (fun s => s.id == t.id)

/-- The order reassignment of part_000 (lines 248-258): root tasks take a running
1-based counter, children their 1-based position inside the sibling group of the
flattened list. -/
def assignAux (finalTasks : List Task) : List Task → Int → List Task
  | [], _ => []
  | t :: rest, rootOrder =>
    if truthy t.parentId = false then
      { t with order := rootOrder } :: assignAux finalTasks rest (rootOrder + 1)
    else
      { t with order := (sibIdx finalTasks t : Int) + 1 } :: assignAux finalTasks rest rootOrder

/-- finalTasks.map with the order updates (part_000 lines 249-258). -/
def assignOrders (finalTasks : List Task) : List Task :=
  assignAux finalTasks finalTasks 1

/-- The order normalizer of part_000 (lines 218-258): hierarchical rebuild followed by
the order reassignment. -/
def normalizeTasks (ts : List Task) : List Task := assignOrders (rebuildHier ts)

/-- handleDragEnd of part_000 (lines 112-270): resolve the gesture, update the dragged
parent, rebuild hierarchically, reassign orders, validate, and hand the list to
onTaskReorder; none models every early return. The console logging is dropped. The
three null-producing branches of the regular-drop parent decision collapse to one. -/
def handleDragEndP (validTasks : List Task) (activeId : String) (over : Option String) :
    Option (List Task) :=
  match over with
  | none => none
  | some overId =>
    if activeId == overId then none
    else
      let isDropZoneDrop := hasDropzoneMark overId
      let actualTargetTaskId := if isDropZoneDrop then stripDropzoneMark overId else overId
      match validTasks.find? (fun t => t.id == activeId),
            validTasks.find? (fun t => t.id == actualTargetTaskId) with
      | none, _ => none
      | some _, none => none
      | some draggedTask, some targetTask =>
        let draggedIsSection := validTasks.any (fun t => t.parentId == some draggedTask.id)
        if draggedIsSection && truthy targetTask.parentId then none
        else
          let oldIndex := findIdxJs validTasks activeId
          let newIndex := findIdxJs validTasks actualTargetTaskId
          let newParentId : Option String :=
            if isDropZoneDrop then
              if truthy targetTask.parentId = false && !draggedIsSection then
                some actualTargetTaskId
              else draggedTask.parentId
            else if !draggedIsSection then
              if truthy targetTask.parentId then targetTask.parentId
              else none
            else none
          let withParent := fun (task : Task) =>
            if task.id == activeId then
              { task with parentId := if truthy newParentId then newParentId else none }
            else task
          let reorderedTasks :=
            if isDropZoneDrop then validTasks.map withParent
            else (arrayMove validTasks oldIndex newIndex).map withParent
          let finalTasksWithOrder := normalizeTasks reorderedTasks
          if !(validateTaskArray finalTasksWithOrder).isValid then none
          else some finalTasksWithOrder

/-- The ascending comparator (a, b) => a.order - b.order of the root and child sorts;
JS stable sort, realised by insertionSort. -/
def orderLE (a b : Task) : Prop := a.order ≤ b.order

instance : DecidableRel orderLE := fun _ _ => Int.decLe _ _

/-- hierarchicalTasks (useTaskManager.js lines 234-249): root tasks sorted by order,
each followed by its children sorted by order. -/
def hierarchicalTasks (tasks : List Task) : List Task :=
  let rootTasks := List.insertionSort orderLE (tasks.filter (fun t => !truthy t.parentId))
  rootTasks.flatMap (fun root =>
    root :: List.insertionSort orderLE (tasks.filter (fun t => t.parentId == some root.id)))

/-- getTaskHierarchy (part_016 lines 56-68): root tasks in stored order, each followed
by its children sorted by order. -/
def getTaskHierarchy (allTasks : List Task) : List Task :=
  (allTasks.filter (fun t => !truthy t.parentId)).flatMap (fun root =>
    root :: List.insertionSort orderLE (allTasks.filter (fun t => t.parentId == some root.id)))

/-- The hierarchical flatten with the processedIds bookkeeping removed: on a list with
unique ids and no empty-string parent pointers it coincides with the faithful rebuild
(lemma rebuildAux_eq_flattenW below). -/
def flattenW (all rest : List Task) : List Task :=
  rest.flatMap (fun t =>
    if t.parentId = none then t :: all.filter (fun c => c.parentId == some t.id) else [])

/-- The structural skeleton of a task: the two fields every selection decision of the
rebuild and the order reassignment reads. -/
def skel (t : Task) : String × Option String := (t.id, t.parentId)

/-
-------------------------------------------------------------------------------
Shared helper lemmas
-------------------------------------------------------------------------------
-/

theorem TasksByCat.get_set (s : TasksByCat) (c : Cat) (l : List Task) :
    (s.set c l).get c = l := by
  cases s
  cases c <;> rfl

theorem truthy_eq_false_iff {o : Option String} (h : o ≠ some "") :
    truthy o = false ↔ o = none := by
  cases o with
  | none => simp [truthy]
  | some s =>
    simp only [truthy, bne_eq_false_iff_eq, Option.some.injEq]
    exact ⟨fun hs => absurd (by rw [hs]) h, fun hs => absurd hs (by simp)⟩

theorem foldl_max_le_self (a : Int) (l : List Int) : a ≤ l.foldl max a := by
  induction l generalizing a with
  | nil => exact le_refl a
  | cons b bs ih => exact le_trans (le_max_left a b) (ih (max a b))

theorem mem_le_foldl_max {x : Int} {l : List Int} (a : Int) (hx : x ∈ l) :
    x ≤ l.foldl max a := by
  induction l generalizing a with
  | nil => cases hx
  | cons b bs ih =>
    rcases List.mem_cons.mp hx with h | h
    · subst h
      exact le_trans (le_max_right a x) (foldl_max_le_self _ _)
    · exact ih _ h

theorem foldl_max_le {a m : Int} {l : List Int} (ha : a ≤ m) (hl : ∀ x ∈ l, x ≤ m) :
    l.foldl max a ≤ m := by
  induction l generalizing a with
  | nil => exact ha
  | cons b bs ih =>
    exact ih (max_le ha (hl b (by simp))) (fun x hx => hl x (by simp [hx]))

/-- On a sibling group whose order values are a permutation of 1..N, the Math.max
computation of ADD_TASK yields exactly N. -/
theorem maxOrderOf_of_perm {g : List Task} {N : Nat}
    (h : (g.map Task.order).Perm ((List.range N).map (fun k : Nat => (k : Int) + 1))) :
    maxOrderOf g = N := by
  have hlen : (g.map Task.order).length = N := by
    rw [h.length_eq, List.length_map, List.length_range]
  cases hm : g.map Task.order with
  | nil =>
    have hN : N = 0 := by
      rw [hm] at hlen
      simpa using hlen.symm
    simp [maxOrderOf, hm, hN]
  | cons o os =>
    have hNpos : 1 ≤ N := by
      rw [hm] at hlen
      simp at hlen
      omega
    have hmem : ∀ x ∈ o :: os, x ≤ (N : Int) := by
      intro x hx
      have hx2 : x ∈ (List.range N).map (fun k : Nat => (k : Int) + 1) :=
        h.mem_iff.mp (by rw [hm]; exact hx)
      rcases List.mem_map.mp hx2 with ⟨k, hk, rfl⟩
      have := List.mem_range.mp hk
      omega
    have hNmem : (N : Int) ∈ o :: os := by
      have hx2 : (N : Int) ∈ (List.range N).map (fun k : Nat => (k : Int) + 1) :=
        List.mem_map.mpr ⟨N - 1, List.mem_range.mpr (by omega), by omega⟩
      have hx3 := h.mem_iff.mpr hx2
      rw [hm] at hx3
      exact hx3
    have hle : os.foldl max o ≤ (N : Int) :=
      foldl_max_le (hmem o (List.mem_cons_self _ _))
        (fun x hx => hmem x (List.mem_cons_of_mem _ hx))
    have hge : (N : Int) ≤ os.foldl max o := by
      rcases List.mem_cons.mp hNmem with hh | hh
      · rw [hh]
        exact foldl_max_le_self o os
      · exact mem_le_foldl_max _ hh
    simp only [maxOrderOf, hm]
    exact le_antisymm hle hge

/-
-------------------------------------------------------------------------------
C1 - optimistic rollback restores the snapshot
-------------------------------------------------------------------------------
-/

/-- C1: for every intent dispatched with a remote user id set, a rejected remote call
leaves the task collections exactly as they were immediately before the intent was
applied - the rollback restores the full snapshot, with no partially-applied state -
and the (non-empty) failure reason is stored in the error state. -/
theorem C1_rollback_restores_snapshot (userId : Option String) (state : ManagerState)
    (intent : Intent) (msg : String) (huid : truthy userId = true) (hmsg : msg ≠ "") :
    (applyIntentFlow userId state intent (.err msg)).tasks = state.tasks ∧
    (applyIntentFlow userId state intent (.err msg)).error = some msg := by
  constructor
  · simp [applyIntentFlow, huid, taskReducer]
  · simp [applyIntentFlow, huid, taskReducer, hmsg]

/-- Witness for C1 at a concrete state, intent and failure message. -/
theorem C1_rollback_restores_snapshot_witness :
    (applyIntentFlow (some "u") ⟨⟨[], []⟩, Cat.personal, none, false, none⟩
        (.add "Buy milk" none "id1") (.err "server down")).tasks = (⟨[], []⟩ : TasksByCat) ∧
    (applyIntentFlow (some "u") ⟨⟨[], []⟩, Cat.personal, none, false, none⟩
        (.add "Buy milk" none "id1") (.err "server down")).error = some "server down" :=
  C1_rollback_restores_snapshot (some "u") ⟨⟨[], []⟩, Cat.personal, none, false, none⟩
    (.add "Buy milk" none "id1") "server down" (by decide) (by decide)

/-
-------------------------------------------------------------------------------
C5 - empty description on add
-------------------------------------------------------------------------------
-/

/-- The empty manager state used by several concrete counterexamples. -/
def emptyState : ManagerState := ⟨⟨[], []⟩, Cat.personal, none, false, none⟩

/-- C5 counterexample: an add intent whose description is whitespace-only is not
rejected - the reducer creates a task with the fallback description, so the collection
is not the one from before the intent. -/
theorem C5_counterexample :
    (taskReducer emptyState (.addTask "   " none "x")).tasks.personal
      = [⟨"x", "Untitled Task", Cat.personal, false, 1, none⟩] ∧
    (taskReducer emptyState (.addTask "   " none "x")).tasks.personal
      ≠ emptyState.tasks.personal := by
  decide

/-- C5 amended: a whitespace-only description does not block the add intent and
surfaces no error; the reducer appends exactly one task whose description is the
fallback text "Untitled Task" (next order in the target group, supplied fresh id),
and the error state is untouched. -/
theorem C5_whitespace_add_creates_fallback (state : ManagerState) (d : String)
    (pid : Option String) (fid : String) (hd : jsTrim d = "") :
    (taskReducer state (.addTask d pid fid)).tasks.get state.category
      = state.tasks.get state.category ++
        [⟨fid, "Untitled Task", state.category, false,
          maxOrderOf (tasksInLevelOf (state.tasks.get state.category) pid) + 1, pid⟩] ∧
    (taskReducer state (.addTask d pid fid)).error = state.error := by
  constructor
  · simp only [taskReducer, createSafeTask, hd, TasksByCat.get_set]
    simp
  · simp [taskReducer]

/-- Witness for C5 at a concrete state and whitespace description. -/
theorem C5_whitespace_add_creates_fallback_witness :
    jsTrim "   " = "" ∧
    ((taskReducer emptyState (.addTask "   " none "x")).tasks.get emptyState.category
      = emptyState.tasks.get emptyState.category ++
        [⟨"x", "Untitled Task", emptyState.category, false,
          maxOrderOf (tasksInLevelOf (emptyState.tasks.get emptyState.category) none) + 1, none⟩] ∧
    (taskReducer emptyState (.addTask "   " none "x")).error = emptyState.error) :=
  ⟨by decide, C5_whitespace_add_creates_fallback emptyState "   " none "x" (by decide)⟩

/-
-------------------------------------------------------------------------------
C3 - dense sibling orders after mutations
-------------------------------------------------------------------------------
-/

/-- Three dense root tasks, the pre-state of the C3 counterexample. -/
def denseTriple : ManagerState :=
  ⟨⟨[⟨"a", "A", Cat.personal, false, 1, none⟩,
     ⟨"b", "B", Cat.personal, false, 2, none⟩,
     ⟨"c", "C", Cat.personal, false, 3, none⟩], []⟩, Cat.personal, none, false, none⟩

/-- C3 counterexample: completing the middle of three dense root tasks leaves the order
values 1 and 3 in the root group - the reducer never renumbers on completion - so the
orders are not the set 1..N after that completed mutation. -/
theorem C3_counterexample :
    denseAll denseTriple.tasks.personal = true ∧
    denseAll ((taskReducer denseTriple (.completeTask "b")).tasks.personal) = false := by
  decide

/-- Under the no-empty-string-parents hypothesis, the JS sibling-group filter of
ADD_TASK agrees with the plain parentId filter. -/
theorem tasksInLevelOf_eq_filter (ts : List Task) (pid : Option String)
    (hclean : ∀ t ∈ ts, t.parentId ≠ some "") (hpid : pid ≠ some "") :
    tasksInLevelOf ts pid = ts.filter (fun t => t.parentId == pid) := by
  cases pid with
  | none =>
    rw [tasksInLevelOf, if_neg (by simp [truthy])]
    refine List.filter_congr (fun t ht => ?_)
    cases htp : t.parentId with
    | none => simp [truthy]
    | some s =>
      have hs : s ≠ "" := by
        intro h
        exact hclean t ht (by rw [htp, h])
      simp [truthy, hs]
  | some s =>
    have hs : s ≠ "" := fun h => hpid (by rw [h])
    rw [tasksInLevelOf, if_pos (by simp [truthy, hs])]

/-- A sibling group that no stored task points at is trivially dense. -/
theorem denseGroup_of_not_mem (ts : List Task) (p : Option String)
    (h : ∀ t ∈ ts, t.parentId ≠ p) : denseGroup ts p = true := by
  have hnil : ts.filter (fun t => t.parentId == p) = [] := by
    rw [List.filter_eq_nil_iff]
    intro t ht
    simp only [beq_iff_eq]
    exact h t ht
  simp [denseGroup, hnil]

/-- Appending a task whose order is the group maximum plus one keeps every sibling
group dense, provided the collection carries no empty-string parent pointers (so the
JS root-group filter is the parentId-absent filter) and every group was dense. -/
theorem denseAll_add (ts : List Task) (pid : Option String) (newT : Task)
    (hclean : ∀ t ∈ ts, t.parentId ≠ some "")
    (hpid : pid ≠ some "")
    (hdense : denseAll ts = true)
    (hp : newT.parentId = pid)
    (ho : newT.order = maxOrderOf (tasksInLevelOf ts pid) + 1) :
    denseAll (ts ++ [newT]) = true := by
  have hdense2 : ∀ p ∈ (none :: ts.map Task.parentId), denseGroup ts p = true :=
    List.all_eq_true.mp hdense
  rw [denseAll, List.all_eq_true]
  intro p hmem
  by_cases hppid : p = pid
  · -- the target group gains the new task at order N + 1
    subst hppid
    have hgold : denseGroup ts p = true := by
      by_cases hin : p ∈ (none :: ts.map Task.parentId)
      · exact hdense2 p hin
      · refine denseGroup_of_not_mem ts p (fun t ht heq => hin ?_)
        exact List.mem_cons_of_mem _ (List.mem_map.mpr ⟨t, ht, heq⟩)
    have hperm : ((ts.filter (fun t => t.parentId == p)).map Task.order).Perm
        ((List.range (ts.filter (fun t => t.parentId == p)).length).map
          (fun k : Nat => (k : Int) + 1)) := by
      simpa [denseGroup, decide_eq_true_eq] using hgold
    have hmax : maxOrderOf (tasksInLevelOf ts p)
        = (ts.filter (fun t => t.parentId == p)).length := by
      rw [tasksInLevelOf_eq_filter ts p hclean hpid]
      exact maxOrderOf_of_perm hperm
    have hfilterNew : (ts ++ [newT]).filter (fun t => t.parentId == p)
        = ts.filter (fun t => t.parentId == p) ++ [newT] := by
      rw [List.filter_append]
      simp [hp]
    simp only [denseGroup, hfilterNew, decide_eq_true_eq]
    rw [List.map_append, List.length_append]
    simp only [List.map_cons, List.map_nil, List.length_cons, List.length_nil]
    rw [List.range_succ, List.map_append, ho, hmax]
    exact hperm.append (List.Perm.refl _)
  · -- every other group is untouched by the appended task
    have hfilter : (ts ++ [newT]).filter (fun t => t.parentId == p)
        = ts.filter (fun t => t.parentId == p) := by
      rw [List.filter_append]
      have : (newT.parentId == p) = false := by
        rw [hp]
        exact beq_eq_false_iff_ne.mpr (fun h => hppid h.symm)
      simp [this]
    have hin : p ∈ (none :: ts.map Task.parentId) := by
      rcases List.mem_cons.mp hmem with h | h
      · exact h ▸ List.mem_cons_self _ _
      · rw [List.map_append] at h
        rcases List.mem_append.mp h with h | h
        · exact List.mem_cons_of_mem _ h
        · simp only [List.map_cons, List.map_nil, List.mem_singleton, hp] at h
          exact absurd h hppid
    have := hdense2 p hin
    simp only [denseGroup, hfilter]
    simpa [denseGroup] using this

/-- The complete intent never renumbers: every surviving task keeps its id, order and
parentId (only a description may change through the section conversion). -/
theorem complete_preserves_structure (state : ManagerState) (i : String) :
    ∀ t ∈ (taskReducer state (.completeTask i)).tasks.get state.category,
      ∃ s ∈ state.tasks.get state.category,
        t.id = s.id ∧ t.order = s.order ∧ t.parentId = s.parentId := by
  intro t ht
  simp only [taskReducer] at ht
  cases hf : (state.tasks.get state.category).find? (fun t => t.id == i) with
  | none =>
    rw [hf] at ht
    exact ⟨t, ht, rfl, rfl, rfl⟩
  | some td =>
    rw [hf] at ht
    simp only [TasksByCat.get_set] at ht
    split at ht
    · split at ht
      · rcases List.mem_map.mp ht with ⟨s, hs, rfl⟩
        have hs2 := (List.mem_filter.mp hs).1
        refine ⟨s, hs2, ?_⟩
        by_cases hid : (some s.id == td.parentId) = true <;> simp [hid]
      · exact ⟨t, (List.mem_filter.mp ht).1, rfl, rfl, rfl⟩
    · exact ⟨t, (List.mem_filter.mp ht).1, rfl, rfl, rfl⟩

/-- The rename intent changes no order value. -/
theorem rename_preserves_orders (state : ManagerState) (rid rd : String) :
    ((taskReducer state (.renameTask rid rd)).tasks.get state.category).map Task.order
      = (state.tasks.get state.category).map Task.order := by
  simp only [taskReducer]
  split
  · rfl
  · simp only [TasksByCat.get_set, List.map_map]
    refine List.map_congr_left (fun t ht => ?_)
    by_cases h : (t.id == rid) = true <;> simp [h, Function.comp]

/-- C3 amended: density is not restored by completion, so the original claim holds only
in this weaker form. The add intent keeps every sibling group dense when the collection
was dense (the new task takes order N+1 in its target group); the complete intent never
renumbers - every surviving task keeps its id, order and parentId, so removing a
non-maximal sibling leaves a gap; the rename intent changes no order value; and the
reorder intent stores the supplied list verbatim, so it is dense exactly when the
supplied list is. -/
theorem C3_mutation_order_discipline (state : ManagerState) (d : String)
    (pid : Option String) (fid i rid rd : String) (l : List Task)
    (hclean : ∀ t ∈ state.tasks.get state.category, t.parentId ≠ some "")
    (hpid : pid ≠ some "")
    (hdense : denseAll (state.tasks.get state.category) = true) :
    denseAll ((taskReducer state (.addTask d pid fid)).tasks.get state.category) = true ∧
    (∀ t ∈ (taskReducer state (.completeTask i)).tasks.get state.category,
      ∃ s ∈ state.tasks.get state.category,
        t.id = s.id ∧ t.order = s.order ∧ t.parentId = s.parentId) ∧
    ((taskReducer state (.renameTask rid rd)).tasks.get state.category).map Task.order
      = (state.tasks.get state.category).map Task.order ∧
    (taskReducer state (.reorderTasks l)).tasks.get state.category = l := by
  refine ⟨?_, complete_preserves_structure state i, rename_preserves_orders state rid rd, ?_⟩
  · simp only [taskReducer, TasksByCat.get_set]
    exact denseAll_add _ pid _ hclean hpid hdense rfl rfl
  · simp only [taskReducer, TasksByCat.get_set]

/-- Witness for C3 at the dense three-task state, exercising all four intents. -/
theorem C3_mutation_order_discipline_witness :
    (∀ t ∈ denseTriple.tasks.get denseTriple.category, t.parentId ≠ some "") ∧
    (none : Option String) ≠ some "" ∧
    denseAll (denseTriple.tasks.get denseTriple.category) = true ∧
    (denseAll ((taskReducer denseTriple (.addTask "x" none "n")).tasks.get
        denseTriple.category) = true ∧
     (∀ t ∈ (taskReducer denseTriple (.completeTask "b")).tasks.get denseTriple.category,
        ∃ s ∈ denseTriple.tasks.get denseTriple.category,
          t.id = s.id ∧ t.order = s.order ∧ t.parentId = s.parentId) ∧
     ((taskReducer denseTriple (.renameTask "a" "R")).tasks.get
        denseTriple.category).map Task.order
        = (denseTriple.tasks.get denseTriple.category).map Task.order ∧
     (taskReducer denseTriple (.reorderTasks [])).tasks.get denseTriple.category = []) :=
  ⟨by decide, by decide, by decide,
   C3_mutation_order_discipline denseTriple "x" none "n" "b" "a" "R" []
     (by decide) (by decide) (by decide)⟩

/-
-------------------------------------------------------------------------------
C2 - what the reorder intent validates
-------------------------------------------------------------------------------
-/

theorem vtaGo_isValid_iff (ts : List Task) : ∀ seen : List String,
    (vtaGo seen ts).1 = true ↔
      (∀ t ∈ ts, validateTask t = true) ∧ (ts.map Task.id).Nodup ∧
      ∀ t ∈ ts, t.id ∉ seen := by
  induction ts with
  | nil =>
    intro seen
    simp [vtaGo]
  | cons t rest ih =>
    intro seen
    cases hv : validateTask t with
    | false =>
      simp only [vtaGo, hv]
      simp [hv]
    | true =>
      by_cases hseen : t.id ∈ seen
      · have hval : (vtaGo seen (t :: rest)).1 = false := by
          simp [vtaGo, hv, hseen]
        rw [hval]
        simp only [Bool.false_eq_true, false_iff]
        rintro ⟨-, -, h3⟩
        exact h3 t (List.mem_cons_self _ _) hseen
      · have hval : (vtaGo seen (t :: rest)).1 = (vtaGo (t.id :: seen) rest).1 := by
          simp [vtaGo, hv, hseen]
        rw [hval]
        rw [ih (t.id :: seen)]
        constructor
        · rintro ⟨hA, hB, hC⟩
          refine ⟨?_, ?_, ?_⟩
          · intro t' ht'
            rcases List.mem_cons.mp ht' with rfl | ht'
            · exact hv
            · exact hA t' ht'
          · rw [List.map_cons, List.nodup_cons]
            refine ⟨?_, hB⟩
            intro hmem
            rcases List.mem_map.mp hmem with ⟨t', ht', hid⟩
            exact (hC t' ht') (by rw [hid]; exact List.mem_cons_self _ _)
          · intro t' ht'
            rcases List.mem_cons.mp ht' with rfl | ht'
            · exact hseen
            · intro hm
              exact (hC t' ht') (List.mem_cons_of_mem _ hm)
        · rintro ⟨hA, hB, hC⟩
          rw [List.map_cons, List.nodup_cons] at hB
          refine ⟨fun t' ht' => hA t' (List.mem_cons_of_mem _ ht'), hB.2, ?_⟩
          intro t' ht' hm
          rcases List.mem_cons.mp hm with hid | hm2
          · exact hB.1 (List.mem_map.mpr ⟨t', ht', hid⟩)
          · exact (hC t' (List.mem_cons_of_mem _ ht')) hm2

/-- A three-task chain of depth two: c sits below b, which itself sits below a. Every
task passes shape validation, the ids are unique and every parentId occurs in the list,
so the reorder intent accepts it although it breaks the depth and root-parent
invariants of the data model. -/
def depthTwoChain : List Task :=
  [⟨"a", "A", Cat.personal, false, 1, none⟩,
   ⟨"b", "B", Cat.personal, false, 1, some "a"⟩,
   ⟨"c", "C", Cat.personal, false, 1, some "b"⟩]

/-- C2 counterexample: a replacement list that violates the structural invariants of
the data model (a child of a child, so the nesting-depth and parent-is-root invariants
fail) is not rejected: the reorder intent commits it, replacing the stored collection. -/
theorem C2_counterexample :
    specStructuralInvariants depthTwoChain = false ∧
    handleTaskReorder Cat.personal [] depthTwoChain = depthTwoChain ∧
    depthTwoChain ≠ [] := by
  decide

/-- C2 amended: the reorder intent checks only per-task shape (validateTask) with
duplicate-id detection, the active-category membership, and that every truthy parentId
occurs among the ids of the list; it commits exactly when these pass and leaves the
stored collection untouched otherwise. Dense sibling orders, parent-must-be-a-root
(depth at most one) and same-category parent resolution are not validated. -/
theorem C2_reorder_commit_characterization (c : Cat) (stored re : List Task) :
    (handleTaskReorder c stored re = re ∧
      ((∀ t ∈ re, validateTask t = true) ∧ (re.map Task.id).Nodup ∧
       (∀ t ∈ re, t.category = c) ∧
       (∀ t ∈ re, truthy t.parentId = true → t.parentId.getD "" ∈ re.map Task.id))) ∨
    (handleTaskReorder c stored re = stored ∧
      ¬ ((∀ t ∈ re, validateTask t = true) ∧ (re.map Task.id).Nodup ∧
       (∀ t ∈ re, t.category = c) ∧
       (∀ t ∈ re, truthy t.parentId = true → t.parentId.getD "" ∈ re.map Task.id))) := by
  have bridge1 : (validateTaskArray re).isValid = true ↔
      (∀ t ∈ re, validateTask t = true) ∧ (re.map Task.id).Nodup := by
    show (vtaGo [] re).1 = true ↔ _
    rw [vtaGo_isValid_iff]
    simp
  have bridge2 : (re.filter (fun t => t.category != c)).isEmpty = true ↔
      ∀ t ∈ re, t.category = c := by
    rw [List.isEmpty_iff, List.filter_eq_nil_iff]
    simp
  have bridge3 : (re.filter (fun t =>
        truthy t.parentId && !((re.map Task.id).contains (t.parentId.getD "")))).isEmpty
          = true ↔
      ∀ t ∈ re, truthy t.parentId = true → t.parentId.getD "" ∈ re.map Task.id := by
    rw [List.isEmpty_iff, List.filter_eq_nil_iff]
    constructor
    · intro h t ht htr
      have := h t ht
      simp only [htr, Bool.true_and, Bool.not_eq_true', Bool.not_eq_false] at this
      simpa using this
    · intro h t ht
      by_cases htr : truthy t.parentId = true
      · have := h t ht htr
        simp only [htr, Bool.true_and, Bool.not_eq_true', Bool.not_eq_false]
        simpa using this
      · have : truthy t.parentId = false := by
          revert htr
          cases truthy t.parentId <;> simp
        simp [this]
  cases h1 : (validateTaskArray re).isValid with
  | false =>
    right
    constructor
    · simp [handleTaskReorder, h1]
    · intro ⟨hA, hB, _⟩
      rw [bridge1.mpr ⟨hA, hB⟩] at h1
      simp at h1
  | true =>
    cases h2 : (re.filter (fun t => t.category != c)).isEmpty with
    | false =>
      right
      constructor
      · simp [handleTaskReorder, h1, h2]
      · intro ⟨_, _, hC, _⟩
        rw [← bridge2] at hC
        rw [h2] at hC
        cases hC
    | true =>
      cases h3 : (re.filter (fun t =>
          truthy t.parentId && !((re.map Task.id).contains (t.parentId.getD "")))).isEmpty with
      | false =>
        right
        constructor
        · simp only [handleTaskReorder, h1, h2, h3]
          rfl
        · intro ⟨_, _, _, hD⟩
          rw [← bridge3] at hD
          rw [h3] at hD
          cases hD
      | true =>
        left
        refine ⟨?_, (bridge1.mp h1).1, (bridge1.mp h1).2, bridge2.mp h2, bridge3.mp h3⟩
        simp only [handleTaskReorder, h1, h2, h3]
        rfl

/-
-------------------------------------------------------------------------------
C6 - which remote updates a committed reorder issues
-------------------------------------------------------------------------------
-/

/-- A committed hierarchical list identical to the stored one: two roots and one child,
all orders dense per sibling group. -/
def flatMismatchList : List Task :=
  [⟨"a", "A", Cat.personal, false, 1, none⟩,
   ⟨"b", "B", Cat.personal, false, 2, none⟩,
   ⟨"c", "C", Cat.personal, false, 1, some "b"⟩]

/-- C6 counterexample: reorderTasks dispatched with a list identical to the stored
collection - no task's order or parentId changed - still issues a remote update, for
the child task whose flat position 3 differs from its per-sibling order 1, and the
update would overwrite that order with the flat position; no update ever carries a
parentId. The minimal-diff-against-the-pre-reorder-collection reading is refuted. -/
theorem C6_counterexample :
    reorderSyncRequests flatMismatchList = [⟨"c", 3⟩] ∧
    (flatMismatchList.filter (fun t => t.id == "c")).map Task.order = [1] ∧
    (flatMismatchList.filter (fun t => t.id == "c")).map Task.parentId = [some "b"] := by
  decide

/-- C6 amended: the reorder flow compares each task's stored order against its 1-based
position in the flat committed list, not against the pre-reorder collection: a request
is issued exactly for the positions where the two differ, it sets order to the flat
position, and it never carries a parentId (UpdateReq has no such field). -/
theorem C6_requests_characterization (tasks : List Task) (req : UpdateReq) :
    req ∈ reorderSyncRequests tasks ↔
      ∃ i : Nat, ∃ _ : i < tasks.length,
        (tasks.get ⟨i, by omega⟩).order ≠ (i : Int) + 1 ∧
        req = ⟨(tasks.get ⟨i, by omega⟩).id, (i : Int) + 1⟩ := by
  rw [reorderSyncRequests, List.mem_filterMap]
  constructor
  · rintro ⟨⟨i, t⟩, hmem, hf⟩
    have hsome := List.mk_mem_enum_iff_getElem?.mp hmem
    rcases List.getElem?_eq_some_iff.mp hsome with ⟨hlt, hget⟩
    simp only at hf
    by_cases hord : (t.order != (i : Int) + 1) = true
    · rw [if_pos hord] at hf
      refine ⟨i, hlt, ?_, ?_⟩
      · have : tasks.get ⟨i, hlt⟩ = t := hget
        rw [this]
        exact bne_iff_ne.mp hord
      · have : tasks.get ⟨i, hlt⟩ = t := hget
        rw [this]
        exact (Option.some.inj hf).symm
    · rw [if_neg hord] at hf
      cases hf
  · rintro ⟨i, hlt, hord, rfl⟩
    refine ⟨(i, tasks.get ⟨i, hlt⟩), ?_, ?_⟩
    · exact List.mk_mem_enum_iff_getElem?.mpr (List.getElem?_eq_some_iff.mpr ⟨hlt, rfl⟩)
    · simp only
      rw [if_pos (bne_iff_ne.mpr hord)]

/-
-------------------------------------------------------------------------------
C7 - unresolved drop targets
-------------------------------------------------------------------------------
-/

/-- Two plain root tasks. -/
def twoRoots : List Task :=
  [⟨"a", "A", Cat.personal, false, 1, none⟩,
   ⟨"b", "B", Cat.personal, false, 2, none⟩]

/-- C7 counterexample: in the components/TaskContainer.js handler a drop target that
resolves to no task in the collection is not a no-op - the handler still produces a
reordered list (findIndex returns -1, the negative splice target moves the dragged task
toward the end, and the parent is recomputed from the missing target) and hands it to
onTaskReorder. -/
theorem C7_counterexample :
    (handleDragEndC twoRoots "a" (some "zz")).isSome = true ∧
    handleDragEndC twoRoots "a" (some "zz") ≠ some twoRoots ∧
    (¬ ∃ t ∈ twoRoots, t.id = "zz") := by
  decide

/-- C7 amended: the part_000 handler does refuse such gestures - with a drop on the
task itself (identical ids), a missing dragged task, or a resolved target id that finds
no task, it returns before producing any list; the components/TaskContainer.js handler
checks only the identical-ids condition, as the counterexample shows. -/
theorem C7_part000_rejects_unresolved (tasks : List Task) (activeId oid : String)
    (h : oid = activeId ∨
         tasks.find? (fun t => t.id == activeId) = none ∨
         tasks.find? (fun t =>
           t.id == (if hasDropzoneMark oid then stripDropzoneMark oid else oid)) = none) :
    handleDragEndP tasks activeId (some oid) = none := by
  by_cases heq : (activeId == oid) = true
  · simp only [handleDragEndP]
    rw [if_pos heq]
  · rcases h with rfl | h | h
    · exact absurd (by simp) heq
    · simp only [handleDragEndP]
      rw [if_neg heq, h]
    · simp only [handleDragEndP]
      rw [if_neg heq, h]
      cases tasks.find? (fun t => t.id == activeId) <;> rfl

/-- Witness for C7: dragging task a onto the stale id zz is rejected by the part_000
handler. -/
theorem C7_part000_rejects_unresolved_witness :
    ("zz" = "a" ∨
     twoRoots.find? (fun t => t.id == "a") = none ∨
     twoRoots.find? (fun t =>
       t.id == (if hasDropzoneMark "zz" then stripDropzoneMark "zz" else "zz")) = none) ∧
    handleDragEndP twoRoots "a" (some "zz") = none :=
  ⟨Or.inr (Or.inr (by decide)),
   C7_part000_rejects_unresolved twoRoots "a" "zz" (Or.inr (Or.inr (by decide)))⟩

/-
-------------------------------------------------------------------------------
C4 - dragged sections and parent acquisition
-------------------------------------------------------------------------------
-/

/-- A section s with one child c, next to a plain root task t. -/
def sectionAndPlain : List Task :=
  [⟨"s", "S", Cat.personal, false, 1, none⟩,
   ⟨"c", "child", Cat.personal, false, 1, some "s"⟩,
   ⟨"t", "t", Cat.personal, false, 2, none⟩]

/-- C4 counterexample: the components/TaskContainer.js handler has no section guard -
dragging the section s onto the nesting dropzone of the plain root t assigns s the
parent t, so a section does acquire a parentId. -/
theorem C4_counterexample :
    sectionAndPlain.any (fun t => t.parentId == some "s") = true ∧
    ((handleDragEndC sectionAndPlain "s" (some "dropzone-t")).getD []).any
        (fun t => t.id == "s" && t.parentId == some "t") = true := by
  decide

theorem mem_addKids_fst {t : Task} : ∀ (cs : List Task) (p : List String),
    t ∈ (addKids cs p).1 → t ∈ cs := by
  intro cs
  induction cs with
  | nil =>
    intro p h
    simp [addKids] at h
  | cons c cs ih =>
    intro p h
    rw [addKids] at h
    split at h
    · exact List.mem_cons_of_mem _ (ih _ h)
    · rcases List.mem_cons.mp h with rfl | h2
      · exact List.mem_cons_self _ _
      · exact List.mem_cons_of_mem _ (ih _ h2)

theorem mem_rebuildAux {t : Task} (all : List Task) : ∀ (rest : List Task) (p : List String),
    t ∈ rebuildAux all rest p → t ∈ all ∨ t ∈ rest := by
  intro rest
  induction rest with
  | nil =>
    intro p h
    simp [rebuildAux] at h
  | cons u rest ih =>
    intro p h
    rw [rebuildAux] at h
    split at h
    · rcases List.mem_cons.mp h with rfl | h2
      · exact Or.inr (List.mem_cons_self _ _)
      · rcases List.mem_append.mp h2 with h3 | h3
        · have h4 := mem_addKids_fst _ _ h3
          have h5 : t ∈ all.filter (fun c => c.parentId == some u.id) :=
            (List.perm_insertionSort _ _).mem_iff.mp h4
          exact Or.inl (List.mem_filter.mp h5).1
        · rcases ih _ h3 with h4 | h4
          · exact Or.inl h4
          · exact Or.inr (List.mem_cons_of_mem _ h4)
    · rcases ih _ h with h4 | h4
      · exact Or.inl h4
      · exact Or.inr (List.mem_cons_of_mem _ h4)

theorem mem_assignAux {t : Task} (F : List Task) : ∀ (u : List Task) (n : Int),
    t ∈ assignAux F u n → ∃ s ∈ u, t.id = s.id ∧ t.parentId = s.parentId ∧
      t.description = s.description := by
  intro u
  induction u with
  | nil =>
    intro n h
    simp [assignAux] at h
  | cons s u ih =>
    intro n h
    rw [assignAux] at h
    split at h
    · rcases List.mem_cons.mp h with rfl | h2
      · exact ⟨s, List.mem_cons_self _ _, rfl, rfl, rfl⟩
      · rcases ih _ h2 with ⟨s2, hs2, h3⟩
        exact ⟨s2, List.mem_cons_of_mem _ hs2, h3⟩
    · rcases List.mem_cons.mp h with rfl | h2
      · exact ⟨s, List.mem_cons_self _ _, rfl, rfl, rfl⟩
      · rcases ih _ h2 with ⟨s2, hs2, h3⟩
        exact ⟨s2, List.mem_cons_of_mem _ hs2, h3⟩

/-- Every task of the normalized list descends from a task of the input list, keeping
its id, parentId and description; only the order field is rewritten. -/
theorem mem_normalizeTasks {t : Task} (l : List Task) (h : t ∈ normalizeTasks l) :
    ∃ s ∈ l, t.id = s.id ∧ t.parentId = s.parentId ∧ t.description = s.description := by
  rcases mem_assignAux _ _ _ h with ⟨s, hs, h1, h2, h3⟩
  rcases mem_rebuildAux _ _ _ hs with h4 | h4
  · exact ⟨s, h4, h1, h2, h3⟩
  · exact ⟨s, h4, h1, h2, h3⟩

/-- C4 amended: the part_000 handler does protect sections - on a collection satisfying
section exclusivity (a task with a child has no parent), any gesture it resolves leaves
the dragged task parentless whenever that task currently has a child; the
components/TaskContainer.js handler lacks the guard and nests a dragged section dropped
on a dropzone, as the counterexample shows. -/
theorem C4_part000_section_stays_root (tasks : List Task) (activeId : String)
    (over : Option String) (out : List Task)
    (hsec : ∀ t ∈ tasks, (∃ c ∈ tasks, c.parentId = some t.id) → t.parentId = none)
    (hdragged : ∃ c ∈ tasks, c.parentId = some activeId)
    (hout : handleDragEndP tasks activeId over = some out) :
    ∀ t ∈ out, t.id = activeId → t.parentId = none := by
  cases over with
  | none => simp [handleDragEndP] at hout
  | some oid =>
    simp only [handleDragEndP] at hout
    by_cases heq : (activeId == oid) = true
    · rw [if_pos heq] at hout
      cases hout
    · rw [if_neg heq] at hout
      split at hout
      · exact Option.noConfusion hout
      · exact Option.noConfusion hout
      · rename_i draggedTask targetTask hfd hft
        have hdmem := List.mem_of_find?_eq_some hfd
        have hdid : draggedTask.id = activeId := by
          have := List.find?_some hfd
          simpa using this
        have hdroot : draggedTask.parentId = none := by
          refine hsec draggedTask hdmem ?_
          rw [hdid]
          exact hdragged
        have hsecb : (tasks.any (fun t => t.parentId == some draggedTask.id)) = true := by
          rw [List.any_eq_true]
          rcases hdragged with ⟨c, hc, hcp⟩
          refine ⟨c, hc, ?_⟩
          rw [hdid]
          simp [hcp]
        rw [hsecb] at hout
        simp only [Bool.true_and, Bool.not_true, Bool.and_false, Bool.false_eq_true,
          if_false, hdroot, ite_self] at hout
        split at hout
        · exact Option.noConfusion hout
        · have hmap : ∀ base : List Task, ∀ t ∈ normalizeTasks (base.map (fun task =>
              if task.id == activeId then
                { task with parentId := (none : Option String) }
              else task)), t.id = activeId → t.parentId = none := by
            intro base t ht hid
            rcases mem_normalizeTasks _ ht with ⟨s, hs, h1, h2, h3⟩
            rcases List.mem_map.mp hs with ⟨u, hu, rfl⟩
            by_cases hmatch : (u.id == activeId) = true
            · rw [h2]
              simp [hmatch]
            · rw [if_neg hmatch] at h1 h2
              rw [h1] at hid
              exact absurd (by simp [hid]) hmatch
          split at hout
          · split at hout
            · exact Option.noConfusion hout
            · have hx := Option.some.inj hout
              subst hx
              exact hmap tasks
          · split at hout
            · exact Option.noConfusion hout
            · have hx := Option.some.inj hout
              subst hx
              exact hmap _

/-- Witness for C4: dragging the section s of sectionAndPlain onto dropzone-t through
the part_000 handler keeps s parentless. -/
theorem C4_part000_section_stays_root_witness :
    (∀ t ∈ sectionAndPlain, (∃ c ∈ sectionAndPlain, c.parentId = some t.id) →
      t.parentId = none) ∧
    (∃ c ∈ sectionAndPlain, c.parentId = some "s") ∧
    (∀ t ∈ sectionAndPlain, t.id = "s" → t.parentId = none) :=
  ⟨by decide, by decide,
   C4_part000_section_stays_root sectionAndPlain "s" (some "dropzone-t") sectionAndPlain
     (by decide) (by decide) (by decide)⟩

/-
-------------------------------------------------------------------------------
C8 - completion semantics and the section-to-task conversion
-------------------------------------------------------------------------------
-/

/-- A section p (all-caps description) with a single child c, next to a plain root t. -/
def healthTriple : List Task :=
  [⟨"p", "HEALTH", Cat.personal, false, 1, none⟩,
   ⟨"c", "walk", Cat.personal, false, 1, some "p"⟩,
   ⟨"t", "x", Cat.personal, false, 2, none⟩]

/-- C8 counterexample: renesting the last child away (dragging c onto the root t
through the part_000 handler) leaves p childless but does not case-transform its
description - it stays "HEALTH", while either modelled conversion (the reducer title
casing or the part_016 lower casing) would have changed it. The conversion happens on
the completion path only. -/
theorem C8_counterexample :
    handleDragEndP healthTriple "c" (some "t")
      = some [⟨"p", "HEALTH", Cat.personal, false, 1, none⟩,
              ⟨"t", "x", Cat.personal, false, 2, none⟩,
              ⟨"c", "walk", Cat.personal, false, 3, none⟩] ∧
    jsTitleCase "HEALTH" ≠ "HEALTH" ∧ jsToLower "HEALTH" ≠ "HEALTH" := by
  decide

/-- C8 amended: on the completion path the claim holds - completing a task removes it
and every task pointing at it (the cascade), and when the completed task was the last
child of its parent p, p is rewritten in place with only a case transform of its
description (id, order, parentId, category, completed all unchanged). Renesting the
last child away performs no such transform, as the counterexample shows. -/
theorem C8_complete_semantics (state : ManagerState) (taskId : String) (td : Task)
    (hfind : (state.tasks.get state.category).find? (fun t => t.id == taskId) = some td) :
    (∀ t ∈ (taskReducer state (.completeTask taskId)).tasks.get state.category,
        t.id ≠ taskId ∧ t.parentId ≠ some taskId) ∧
    (∀ p, td.parentId = some p → p ≠ "" →
      (∀ t ∈ state.tasks.get state.category,
        t.id ≠ taskId → t.parentId ≠ some taskId → t.parentId ≠ some p) →
      ∀ t ∈ (taskReducer state (.completeTask taskId)).tasks.get state.category,
        t.id = p → ∃ s ∈ state.tasks.get state.category,
          s.id = p ∧ t = { s with description := jsTitleCase s.description }) := by
  constructor
  · intro t ht
    simp only [taskReducer, hfind, TasksByCat.get_set] at ht
    have base : ∀ s : Task, s ∈ (state.tasks.get state.category).filter
        (fun t => t.id != taskId && t.parentId != some taskId) →
        s.id ≠ taskId ∧ s.parentId ≠ some taskId := by
      intro s hs
      have h2 := (List.mem_filter.mp hs).2
      rw [Bool.and_eq_true] at h2
      exact ⟨bne_iff_ne.mp h2.1, bne_iff_ne.mp h2.2⟩
    split at ht
    · split at ht
      · rcases List.mem_map.mp ht with ⟨s, hs, rfl⟩
        have hb := base s hs
        by_cases hmatch : (some s.id == td.parentId) = true
        · rw [if_pos hmatch]
          exact hb
        · rw [if_neg hmatch]
          exact hb
      · exact base t ht
    · exact base t ht
  · intro p hp hpne hnosib t ht htid
    have htr : truthy td.parentId = true := by
      rw [hp]
      simp [truthy, hpne]
    have hnosib2 : ((state.tasks.get state.category).filter
        (fun t => t.id != taskId && t.parentId != some taskId)).any
          (fun t => t.parentId == td.parentId) = false := by
      rw [List.any_eq_false]
      intro x hx
      have hxm := List.mem_filter.mp hx
      have h2 := hxm.2
      rw [Bool.and_eq_true] at h2
      have := hnosib x hxm.1 (bne_iff_ne.mp h2.1) (bne_iff_ne.mp h2.2)
      rw [hp]
      simp only [beq_iff_eq]
      exact this
    simp only [taskReducer, hfind, TasksByCat.get_set, htr, hnosib2, Bool.not_false,
      if_true] at ht
    rcases List.mem_map.mp ht with ⟨s, hs, rfl⟩
    by_cases hmatch : (some s.id == td.parentId) = true
    · rw [if_pos hmatch]
      rw [if_pos hmatch] at htid
      refine ⟨s, (List.mem_filter.mp hs).1, ?_, rfl⟩
      exact htid
    · rw [if_neg hmatch] at htid
      rw [hp] at hmatch
      rw [htid] at hmatch
      simp at hmatch

/-- Witness for C8: completing the only child of the HEALTH section removes the child
and title-cases the section in place. -/
theorem C8_complete_semantics_witness :
    ((⟨⟨[⟨"p", "HEALTH", Cat.personal, false, 1, none⟩,
        ⟨"c", "walk", Cat.personal, false, 1, some "p"⟩], []⟩,
       Cat.personal, none, false, none⟩ : ManagerState).tasks.get Cat.personal).find?
        (fun t => t.id == "c") = some ⟨"c", "walk", Cat.personal, false, 1, some "p"⟩ ∧
    ((∀ t ∈ (taskReducer ⟨⟨[⟨"p", "HEALTH", Cat.personal, false, 1, none⟩,
        ⟨"c", "walk", Cat.personal, false, 1, some "p"⟩], []⟩,
       Cat.personal, none, false, none⟩ (.completeTask "c")).tasks.get Cat.personal,
        t.id ≠ "c" ∧ t.parentId ≠ some "c") ∧
     (∀ p, (some "p" : Option String) = some p → p ≠ "" →
      (∀ t ∈ ([⟨"p", "HEALTH", Cat.personal, false, 1, none⟩,
               ⟨"c", "walk", Cat.personal, false, 1, some "p"⟩] : List Task),
        t.id ≠ "c" → t.parentId ≠ some "c" → t.parentId ≠ some p) →
      ∀ t ∈ (taskReducer ⟨⟨[⟨"p", "HEALTH", Cat.personal, false, 1, none⟩,
          ⟨"c", "walk", Cat.personal, false, 1, some "p"⟩], []⟩,
         Cat.personal, none, false, none⟩ (.completeTask "c")).tasks.get Cat.personal,
        t.id = p → ∃ s ∈ ([⟨"p", "HEALTH", Cat.personal, false, 1, none⟩,
               ⟨"c", "walk", Cat.personal, false, 1, some "p"⟩] : List Task),
          s.id = p ∧ t = { s with description := jsTitleCase s.description })) :=
  ⟨by decide,
   C8_complete_semantics ⟨⟨[⟨"p", "HEALTH", Cat.personal, false, 1, none⟩,
        ⟨"c", "walk", Cat.personal, false, 1, some "p"⟩], []⟩,
       Cat.personal, none, false, none⟩ "c" ⟨"c", "walk", Cat.personal, false, 1, some "p"⟩
     (by decide)⟩

/-
-------------------------------------------------------------------------------
C9 - idempotence of the order normalizer
-------------------------------------------------------------------------------
-/

theorem findIdx?_isSome_of_mem (p : Task → Bool) {x : Task} : ∀ {l : List Task}, x ∈ l →
    p x = true → (l.findIdx? p).isSome = true := by
  intro l
  induction l with
  | nil =>
    intro h
    cases h
  | cons a l ih =>
    intro hx hp
    rw [List.findIdx?_cons]
    by_cases ha : p a = true
    · simp [ha]
    · have ha2 : p a = false := by
        revert ha
        cases p a <;> simp
      rcases List.mem_cons.mp hx with rfl | hx2
      · exact absurd hp ha
      · have := ih hx2 hp
        simp only [ha2, Bool.false_eq_true, if_false, List.findIdx?_succ]
        simpa using this

theorem firstIdx_head (a : Task) (rest : List Task) : firstIdx (a :: rest) a.id = 0 := by
  rw [firstIdx, List.findIdx?_cons, if_pos (by simp)]
  rfl

theorem firstIdx_nonneg_of_mem (rest : List Task) (i : String)
    (hfound : ∃ t ∈ rest, t.id = i) : 0 ≤ firstIdx rest i := by
  rcases hfound with ⟨t, ht, hti⟩
  have hsome := findIdx?_isSome_of_mem (fun t => t.id == i) ht (by simp [hti])
  rcases Option.isSome_iff_exists.mp hsome with ⟨n, hn⟩
  rw [firstIdx, hn]
  exact Int.ofNat_nonneg n

theorem firstIdx_cons {a : Task} {rest : List Task} {i : String} (hne : a.id ≠ i)
    (hfound : ∃ t ∈ rest, t.id = i) :
    firstIdx (a :: rest) i = firstIdx rest i + 1 := by
  rcases hfound with ⟨t, ht, hti⟩
  have hsome := findIdx?_isSome_of_mem (fun t => t.id == i) ht (by simp [hti])
  rcases Option.isSome_iff_exists.mp hsome with ⟨n, hn⟩
  rw [firstIdx, firstIdx, List.findIdx?_cons, if_neg (by simp [hne]),
    List.findIdx?_succ, hn]
  simp

/-- On a duplicate-free list the whole list is already sorted by first-occurrence
position, so the stable child sort of part_000 is the identity on the filtered
children. -/
theorem pairwise_kidLE (all : List Task) (hn : (all.map Task.id).Nodup) :
    all.Pairwise (kidLE all) := by
  induction all with
  | nil => exact List.Pairwise.nil
  | cons a rest ih =>
    rw [List.map_cons, List.nodup_cons] at hn
    refine List.Pairwise.cons ?_ ?_
    · intro b hb
      show firstIdx (a :: rest) a.id ≤ firstIdx (a :: rest) b.id
      rw [firstIdx_head]
      by_cases hba : a.id = b.id
      · rw [← hba, firstIdx_head]
      · rw [firstIdx_cons (fun h => hba h) ⟨b, hb, rfl⟩]
        have := firstIdx_nonneg_of_mem rest b.id ⟨b, hb, rfl⟩
        omega
    · refine (ih hn.2).imp_of_mem ?_
      intro x y hx hy hxy
      have hxe : a.id ≠ x.id := fun h => hn.1 (List.mem_map.mpr ⟨x, hx, h.symm⟩)
      have hye : a.id ≠ y.id := fun h => hn.1 (List.mem_map.mpr ⟨y, hy, h.symm⟩)
      show firstIdx (a :: rest) x.id ≤ firstIdx (a :: rest) y.id
      rw [firstIdx_cons hxe ⟨x, hx, rfl⟩, firstIdx_cons hye ⟨y, hy, rfl⟩]
      have hxy2 : firstIdx rest x.id ≤ firstIdx rest y.id := hxy
      omega

theorem kidsSorted_eq (all : List Task) (hn : (all.map Task.id).Nodup) (pid : String) :
    kidsSorted all pid = all.filter (fun c => c.parentId == some pid) := by
  rw [kidsSorted]
  exact List.Sorted.insertionSort_eq
    (List.Pairwise.sublist (List.filter_sublist _) (pairwise_kidLE all hn))

theorem addKids_spec : ∀ (cs : List Task) (p : List String),
    (∀ c ∈ cs, c.id ∉ p) → ((cs.map Task.id).Nodup) →
    (addKids cs p).1 = cs ∧ ∀ x ∈ (addKids cs p).2, x ∈ cs.map Task.id ∨ x ∈ p := by
  intro cs
  induction cs with
  | nil =>
    intro p _ _
    exact ⟨rfl, fun x hx => Or.inr hx⟩
  | cons c cs ih =>
    intro p h1 h2
    rw [List.map_cons, List.nodup_cons] at h2
    rw [addKids, if_neg (h1 c (List.mem_cons_self _ _))]
    have hpre : ∀ a ∈ cs, a.id ∉ (c.id :: p) := by
      intro a ha
      rw [List.mem_cons]
      rintro (h | h)
      · exact h2.1 (List.mem_map.mpr ⟨a, ha, h⟩)
      · exact h1 a (List.mem_cons_of_mem _ ha) h
    rcases ih (c.id :: p) hpre h2.2 with ⟨hfst, hsnd⟩
    refine ⟨by rw [hfst], ?_⟩
    intro x hx
    rcases hsnd x hx with h | h
    · exact Or.inl (by rw [List.map_cons]; exact List.mem_cons_of_mem _ h)
    · rcases List.mem_cons.mp h with rfl | h3
      · exact Or.inl (by rw [List.map_cons]; exact List.mem_cons_self _ _)
      · exact Or.inr h3

/-- Under unique ids and no empty-string parent pointers, the processedIds bookkeeping
of the rebuild is redundant: the faithful loop equals the plain flatten. The invariant
carried through the loop states that no upcoming root or any of its children has been
processed yet. -/
theorem rebuildAux_eq_flattenW (all : List Task) (hn : (all.map Task.id).Nodup)
    (h0 : ∀ t ∈ all, t.parentId ≠ some "") :
    ∀ (rest : List Task) (p : List String), rest.Sublist all →
    (∀ t ∈ rest, t.parentId = none →
      t.id ∉ p ∧ ∀ c ∈ all, c.parentId = some t.id → c.id ∉ p) →
    rebuildAux all rest p = flattenW all rest := by
  have hinj : ∀ x ∈ all, ∀ y ∈ all, x.id = y.id → x = y :=
    fun x hx y hy => List.inj_on_of_nodup_map hn hx hy
  intro rest
  induction rest with
  | nil =>
    intro p _ _
    rfl
  | cons t rest ih =>
    intro p hsub hinv
    have htall : t ∈ all := hsub.subset (List.mem_cons_self _ _)
    have hrsub : rest.Sublist all := List.sublist_of_cons_sublist hsub
    have hnodup2 : ((t :: rest).map Task.id).Nodup :=
      List.Nodup.sublist (List.Sublist.map _ hsub) hn
    have htid : t.id ∉ rest.map Task.id := by
      rw [List.map_cons, List.nodup_cons] at hnodup2
      exact hnodup2.1
    cases htp : t.parentId with
    | some s =>
      have htr : truthy t.parentId = true := by
        have hs : s ≠ "" := fun h => h0 t htall (by rw [htp, h])
        rw [htp]
        simp [truthy, hs]
      rw [rebuildAux, if_neg (by simp [htr])]
      simp only [flattenW, List.flatMap_cons]
      rw [if_neg (by simp [htp]), List.nil_append]
      exact ih p hrsub (fun u hu hru => hinv u (List.mem_cons_of_mem _ hu) hru)
    | none =>
      have htr : truthy t.parentId = false := by
        rw [htp]
        rfl
      have hinvt := hinv t (List.mem_cons_self _ _) htp
      rw [rebuildAux, if_pos ⟨htr, hinvt.1⟩, kidsSorted_eq all hn]
      have hkpre : ∀ c ∈ all.filter (fun c => c.parentId == some t.id),
          c.id ∉ (t.id :: p) := by
        intro c hc
        have hcm := List.mem_filter.mp hc
        have hcp : c.parentId = some t.id := by simpa using hcm.2
        rw [List.mem_cons]
        rintro (h | h)
        · have heq := hinj c hcm.1 t htall h
          rw [heq, htp] at hcp
          cases hcp
        · exact hinvt.2 c hcm.1 hcp h
      have hknodup : ((all.filter (fun c => c.parentId == some t.id)).map Task.id).Nodup :=
        List.Nodup.sublist (List.Sublist.map _ (List.filter_sublist _)) hn
      rcases addKids_spec _ _ hkpre hknodup with ⟨hfst, hsnd⟩
      rw [hfst]
      have hinv2 : ∀ u ∈ rest, u.parentId = none →
          u.id ∉ (addKids (all.filter (fun c => c.parentId == some t.id)) (t.id :: p)).2 ∧
          ∀ c ∈ all, c.parentId = some u.id →
            c.id ∉ (addKids (all.filter (fun c => c.parentId == some t.id)) (t.id :: p)).2 := by
        intro u hu hur
        have huall : u ∈ all := hrsub.subset hu
        have huinv := hinv u (List.mem_cons_of_mem _ hu) hur
        constructor
        · intro hmem
          rcases hsnd _ hmem with h | h
          · rcases List.mem_map.mp h with ⟨k, hk, hkid⟩
            have hkm := List.mem_filter.mp hk
            have heq := hinj k hkm.1 u huall hkid
            have : u.parentId = some t.id := by
              rw [← heq]
              simpa using hkm.2
            rw [hur] at this
            cases this
          · rcases List.mem_cons.mp h with h | h
            · exact htid (h ▸ List.mem_map.mpr ⟨u, hu, rfl⟩)
            · exact huinv.1 h
        · intro c hcall hcp hmem
          rcases hsnd _ hmem with h | h
          · rcases List.mem_map.mp h with ⟨k, hk, hkid⟩
            have hkm := List.mem_filter.mp hk
            have heq := hinj k hkm.1 c hcall hkid
            have hkp : c.parentId = some t.id := by
              rw [← heq]
              simpa using hkm.2
            rw [hcp] at hkp
            have : u.id = t.id := by
              injection hkp
            exact htid (this ▸ List.mem_map.mpr ⟨u, hu, rfl⟩)
          · rcases List.mem_cons.mp h with h | h
            · have heq := hinj c hcall t htall h
              rw [heq, htp] at hcp
              cases hcp
            · exact huinv.2 c hcall hcp h
      rw [ih _ hrsub hinv2]
      simp only [flattenW, List.flatMap_cons]
      rw [if_pos htp]
      rfl

/-- The faithful rebuild of part_000 equals the plain flatten on any duplicate-free
list without empty-string parent pointers. -/
theorem rebuildHier_eq (all : List Task) (hn : (all.map Task.id).Nodup)
    (h0 : ∀ t ∈ all, t.parentId ≠ some "") :
    rebuildHier all = flattenW all all :=
  rebuildAux_eq_flattenW all hn h0 all [] (List.Sublist.refl _)
    (fun _ _ _ => ⟨List.not_mem_nil _, fun _ _ _ => List.not_mem_nil _⟩)

theorem mem_flattenW {y : Task} {all rest : List Task} :
    y ∈ flattenW all rest ↔ ∃ u ∈ rest, u.parentId = none ∧
      (y = u ∨ (y ∈ all ∧ y.parentId = some u.id)) := by
  rw [flattenW, List.mem_flatMap]
  constructor
  · rintro ⟨u, hu, hy⟩
    by_cases hroot : u.parentId = none
    · rw [if_pos hroot] at hy
      rcases List.mem_cons.mp hy with rfl | hy2
      · exact ⟨y, hu, hroot, Or.inl rfl⟩
      · have hm := List.mem_filter.mp hy2
        exact ⟨u, hu, hroot, Or.inr ⟨hm.1, by simpa using hm.2⟩⟩
    · rw [if_neg hroot] at hy
      cases hy
  · rintro ⟨u, hu, hroot, rfl | ⟨hyall, hyp⟩⟩
    · exact ⟨y, hu, by rw [if_pos hroot]; exact List.mem_cons_self _ _⟩
    · exact ⟨u, hu, by
        rw [if_pos hroot]
        exact List.mem_cons_of_mem _ (List.mem_filter.mpr ⟨hyall, by simp [hyp]⟩)⟩

theorem mem_all_of_mem_flattenW {y : Task} {all rest : List Task}
    (hsub : rest.Sublist all) (h : y ∈ flattenW all rest) : y ∈ all := by
  rcases mem_flattenW.mp h with ⟨u, hu, _, rfl | ⟨h1, _⟩⟩
  · exact hsub.subset hu
  · exact h1

/-- The flatten of a duplicate-free list is itself duplicate-free: each root occurs
once, each child occurs under exactly one root. -/
theorem nodup_flattenW (all : List Task) (hn : (all.map Task.id).Nodup) :
    ∀ rest : List Task, rest.Sublist all → ((flattenW all rest).map Task.id).Nodup := by
  have hinj : ∀ x ∈ all, ∀ y ∈ all, x.id = y.id → x = y :=
    fun x hx y hy => List.inj_on_of_nodup_map hn hx hy
  intro rest
  induction rest with
  | nil =>
    intro _
    simp [flattenW]
  | cons t rest ih =>
    intro hsub
    have htall : t ∈ all := hsub.subset (List.mem_cons_self _ _)
    have hrsub : rest.Sublist all := List.sublist_of_cons_sublist hsub
    have htid : t.id ∉ rest.map Task.id := by
      have hnodup2 : ((t :: rest).map Task.id).Nodup :=
        List.Nodup.sublist (List.Sublist.map _ hsub) hn
      rw [List.map_cons, List.nodup_cons] at hnodup2
      exact hnodup2.1
    by_cases hroot : t.parentId = none
    · have hexp : flattenW all (t :: rest)
          = t :: (all.filter (fun c => c.parentId == some t.id) ++ flattenW all rest) := by
        simp only [flattenW, List.flatMap_cons, if_pos hroot]
        rfl
      rw [hexp, List.map_cons, List.nodup_cons, List.map_append, List.nodup_append]
      have hkids : ∀ k ∈ all.filter (fun c => c.parentId == some t.id),
          k.parentId = some t.id ∧ k ∈ all := by
        intro k hk
        have hm := List.mem_filter.mp hk
        exact ⟨by simpa using hm.2, hm.1⟩
      have hflatm : ∀ y ∈ flattenW all rest,
          (y ∈ rest ∧ y.parentId = none) ∨
          (y ∈ all ∧ ∃ u ∈ rest, u.parentId = none ∧ y.parentId = some u.id) := by
        intro y hy
        rcases mem_flattenW.mp hy with ⟨u, hu, hur, rfl | ⟨h1, h2⟩⟩
        · exact Or.inl ⟨hu, hur⟩
        · exact Or.inr ⟨h1, u, hu, hur, h2⟩
      refine ⟨?_, ?_, ?_, ?_⟩
      · -- t.id occurs in neither the kids nor the tail flatten
        rw [List.mem_append]
        rintro (h | h)
        · rcases List.mem_map.mp h with ⟨k, hk, hkid⟩
          have hkp := hkids k hk
          have heq := hinj k hkp.2 t htall hkid
          rw [heq, hroot] at hkp
          cases hkp.1
        · rcases List.mem_map.mp h with ⟨y, hy, hyid⟩
          rcases hflatm y hy with ⟨hy1, _⟩ | ⟨hy1, u, hu, _, hyp⟩
          · exact htid (hyid ▸ List.mem_map.mpr ⟨y, hy1, rfl⟩)
          · have heq := hinj y hy1 t htall hyid
            rw [heq, hroot] at hyp
            cases hyp
      · exact List.Nodup.sublist (List.Sublist.map _ (List.filter_sublist _)) hn
      · exact ih hrsub
      · -- kid ids and tail-flatten ids are disjoint
        intro x hx1 hx2
        rcases List.mem_map.mp hx1 with ⟨k, hk, hkid⟩
        rcases List.mem_map.mp hx2 with ⟨y, hy, hyid⟩
        have hkp := hkids k hk
        rcases hflatm y hy with ⟨hy1, hyr⟩ | ⟨hy1, u, hu, _, hyp⟩
        · have heq := hinj k hkp.2 y (hrsub.subset hy1) (by rw [hkid, hyid])
          rw [heq, hyr] at hkp
          cases hkp.1
        · have heq := hinj k hkp.2 y hy1 (by rw [hkid, hyid])
          have : some t.id = some u.id := by
            rw [← hkp.1, heq, hyp]
          have hteq : t.id = u.id := by injection this
          exact htid (hteq ▸ List.mem_map.mpr ⟨u, hu, rfl⟩)
    · have hexp : flattenW all (t :: rest) = flattenW all rest := by
        simp only [flattenW, List.flatMap_cons, if_neg hroot]
        rfl
      rw [hexp]
      exact ih hrsub

/-- A list is grouped when it is a concatenation of blocks, each a parentless root
followed by exactly its children, no later block reusing the root id or claiming its
children. The flatten always produces this shape, and a grouped list is a fixed point
of the flatten. -/
inductive Grouped : List Task → Prop where
  | nil : Grouped []
  | cons (r : Task) (ks rest : List Task)
      (hroot : r.parentId = none)
      (hks : ∀ k ∈ ks, k.parentId = some r.id)
      (hrest1 : ∀ u ∈ rest, u.parentId ≠ some r.id)
      (hrest2 : ∀ u ∈ rest, u.id ≠ r.id)
      (hg : Grouped rest) : Grouped (r :: ks ++ rest)

theorem grouped_flattenW (all : List Task) (hn : (all.map Task.id).Nodup) :
    ∀ rest : List Task, rest.Sublist all → Grouped (flattenW all rest) := by
  have hinj : ∀ x ∈ all, ∀ y ∈ all, x.id = y.id → x = y :=
    fun x hx y hy => List.inj_on_of_nodup_map hn hx hy
  intro rest
  induction rest with
  | nil =>
    intro _
    exact Grouped.nil
  | cons t rest ih =>
    intro hsub
    have htall : t ∈ all := hsub.subset (List.mem_cons_self _ _)
    have hrsub : rest.Sublist all := List.sublist_of_cons_sublist hsub
    have htid : t.id ∉ rest.map Task.id := by
      have hnodup2 : ((t :: rest).map Task.id).Nodup :=
        List.Nodup.sublist (List.Sublist.map _ hsub) hn
      rw [List.map_cons, List.nodup_cons] at hnodup2
      exact hnodup2.1
    by_cases hroot : t.parentId = none
    · have hexp : flattenW all (t :: rest)
          = t :: (all.filter (fun c => c.parentId == some t.id) ++ flattenW all rest) := by
        simp only [flattenW, List.flatMap_cons, if_pos hroot]
        rfl
      rw [hexp]
      refine Grouped.cons t _ _ hroot ?_ ?_ ?_ (ih hrsub)
      · intro k hk
        simpa using (List.mem_filter.mp hk).2
      · intro u hu
        rcases mem_flattenW.mp hu with ⟨v, hv, hvr, rfl | ⟨h1, h2⟩⟩
        · rw [hvr]
          intro h
          cases h
        · rw [h2]
          intro h
          have hvt : v.id = t.id := by injection h
          exact htid (hvt ▸ List.mem_map.mpr ⟨v, hv, rfl⟩)
      · intro u hu
        rcases mem_flattenW.mp hu with ⟨v, hv, hvr, rfl | ⟨h1, h2⟩⟩
        · intro h
          exact htid (h ▸ List.mem_map.mpr ⟨u, hv, rfl⟩)
        · intro h
          have heq := hinj u h1 t htall h
          rw [heq, hroot] at h2
          cases h2
    · have hexp : flattenW all (t :: rest) = flattenW all rest := by
        simp only [flattenW, List.flatMap_cons, if_neg hroot]
        rfl
      rw [hexp]
      exact ih hrsub

theorem flatMap_congr {α β : Type} {l : List α} {f g : α → List β}
    (h : ∀ x ∈ l, f x = g x) : l.flatMap f = l.flatMap g := by
  induction l with
  | nil => rfl
  | cons a l ih =>
    rw [List.flatMap_cons, List.flatMap_cons, h a (List.mem_cons_self _ _),
      ih (fun x hx => h x (List.mem_cons_of_mem _ hx))]

/-- A grouped list is a fixed point of the flatten. -/
theorem flattenW_of_grouped : ∀ {W : List Task}, Grouped W → flattenW W W = W := by
  intro W hg
  induction hg with
  | nil => rfl
  | cons r ks rest hroot hks hrest1 hrest2 hg ih =>
    have hfr : List.filter (fun c => c.parentId == some r.id) ((r :: ks) ++ rest) = ks := by
      rw [List.filter_append, List.filter_cons, if_neg (by simp [hroot]),
        List.filter_eq_self.mpr (fun k hk => by simp [hks k hk]),
        List.filter_eq_nil_iff.mpr (fun u hu => by simp [hrest1 u hu]), List.append_nil]
    have hcongr : ∀ u ∈ rest,
        (if u.parentId = none then
          u :: ((r :: ks) ++ rest).filter (fun c => c.parentId == some u.id) else [])
        = (if u.parentId = none then
          u :: rest.filter (fun c => c.parentId == some u.id) else []) := by
      intro u hu
      by_cases hur : u.parentId = none
      · rw [if_pos hur, if_pos hur]
        have hstep : ((r :: ks) ++ rest).filter (fun c => c.parentId == some u.id)
            = rest.filter (fun c => c.parentId == some u.id) := by
          rw [List.filter_append, List.filter_cons, if_neg (by simp [hroot]),
            List.filter_eq_nil_iff.mpr (fun k hk => by
              rw [hks k hk]
              simp only [beq_iff_eq, Option.some.injEq]
              intro hcon
              exact hrest2 u hu hcon.symm), List.nil_append]
        rw [hstep]
      · rw [if_neg hur, if_neg hur]
    show ((r :: ks) ++ rest).flatMap (fun t =>
        if t.parentId = none
        then t :: ((r :: ks) ++ rest).filter (fun c => c.parentId == some t.id) else [])
      = (r :: ks) ++ rest
    rw [List.flatMap_append, List.flatMap_cons, if_pos hroot, hfr,
      List.flatMap_eq_nil_iff.mpr (fun k hk => by rw [if_neg (by simp [hks k hk])]),
      List.append_nil, flatMap_congr hcongr]
    have ih2 : rest.flatMap (fun t =>
        if t.parentId = none then t :: rest.filter (fun c => c.parentId == some t.id)
        else []) = rest := ih
    rw [ih2]

theorem skel_mem_transfer {A B : List Task} (h : A.map skel = B.map skel) :
    ∀ a ∈ A, ∃ b ∈ B, b.id = a.id ∧ b.parentId = a.parentId := by
  intro a ha
  have hmem : skel a ∈ B.map skel := by
    rw [← h]
    exact List.mem_map_of_mem _ ha
  rcases List.mem_map.mp hmem with ⟨b, hb, hsk⟩
  rw [skel, skel, Prod.mk.injEq] at hsk
  exact ⟨b, hb, hsk.1, hsk.2⟩

/-- Groupedness is a property of the skeleton only, so it transfers along any pointwise
id-and-parentId agreement. -/
theorem grouped_of_skel : ∀ {W X : List Task}, X.map skel = W.map skel →
    Grouped W → Grouped X := by
  intro W X h hg
  induction hg generalizing X with
  | nil =>
    have hX : X = [] := by
      rw [List.map_nil] at h
      exact List.map_eq_nil_iff.mp h
    rw [hX]
    exact Grouped.nil
  | cons r ks rest hroot hks hrest1 hrest2 hg ih =>
    rw [List.map_append, List.map_cons] at h
    rcases List.map_eq_append_iff.mp h with ⟨A0, B, rfl, hA0, hB⟩
    rcases List.map_eq_cons_iff.mp hA0 with ⟨x, A, rfl, hx, hA⟩
    rw [skel, skel, Prod.mk.injEq] at hx
    refine Grouped.cons x A B ?_ ?_ ?_ ?_ (ih hB)
    · rw [hx.2]
      exact hroot
    · intro k hk
      rcases skel_mem_transfer hA k hk with ⟨k2, hk2, hip⟩
      rw [← hip.2, hks k2 hk2, hx.1]
    · intro u hu
      rcases skel_mem_transfer hB u hu with ⟨u2, hu2, hip⟩
      rw [← hip.2, hx.1]
      exact hrest1 u2 hu2
    · intro u hu
      rcases skel_mem_transfer hB u hu with ⟨u2, hu2, hip⟩
      rw [← hip.1, hx.1]
      exact hrest2 u2 hu2

theorem assignAux_skel (F : List Task) : ∀ (u : List Task) (n : Int),
    (assignAux F u n).map skel = u.map skel := by
  intro u
  induction u with
  | nil =>
    intro n
    rfl
  | cons t u ih =>
    intro n
    rw [assignAux]
    split
    · rw [List.map_cons, List.map_cons, ih]
      rfl
    · rw [List.map_cons, List.map_cons, ih]
      rfl

theorem sibIdx_congr : ∀ {F1 F2 : List Task}, F1.map skel = F2.map skel →
    ∀ {t1 t2 : Task}, t1.id = t2.id → t1.parentId = t2.parentId →
    sibIdx F1 t1 = sibIdx F2 t2 := by
  intro F1
  induction F1 with
  | nil =>
    intro F2 h t1 t2 _ _
    have hF : F2 = [] := by
      rw [List.map_nil] at h
      exact List.map_eq_nil_iff.mp h.symm
    rw [hF]
    rfl
  | cons a F1 ih =>
    intro F2 h t1 t2 hid hpar
    rw [List.map_cons] at h
    rcases List.map_eq_cons_iff.mp h.symm with ⟨b, F2x, rfl, hb, hF2⟩
    rw [skel, skel, Prod.mk.injEq] at hb
    rw [sibIdx, sibIdx, List.filter_cons, List.filter_cons]
    by_cases hc : (a.parentId == t1.parentId) = true
    · have hc2 : (b.parentId == t2.parentId) = true := by
        rw [hb.2, ← hpar]
        exact hc
      rw [if_pos hc, if_pos hc2, List.findIdx_cons, List.findIdx_cons]
      have hhead : (a.id == t1.id) = (b.id == t2.id) := by
        rw [hb.1, hid]
      rw [← hhead]
      cases hai : (a.id == t1.id)
      · simp only [cond_false]
        have := ih hF2.symm hid hpar
        rw [sibIdx, sibIdx] at this
        rw [this]
      · simp only [cond_true]
    · have hc2 : (b.parentId == t2.parentId) = false := by
        rw [hb.2, ← hpar]
        revert hc
        cases a.parentId == t1.parentId <;> simp
      rw [if_neg (by simp [hc]), if_neg (by simp [hc2])]
      have := ih hF2.symm hid hpar
      rw [sibIdx, sibIdx] at this
      exact this

/-- Reassigning orders against a skeleton-equal full list is the identity on an already
reassigned list: the second pass recomputes exactly the orders the first pass wrote. -/
theorem assign_assign {F2 F : List Task} (h : F2.map skel = F.map skel) :
    ∀ (u : List Task) (n : Int), assignAux F2 (assignAux F u n) n = assignAux F u n := by
  intro u
  induction u with
  | nil =>
    intro n
    rfl
  | cons t u ih =>
    intro n
    rw [assignAux]
    by_cases hr : truthy t.parentId = false
    · rw [if_pos hr, assignAux, if_pos hr, ih (n + 1)]
    · rw [if_neg hr, assignAux, if_neg hr]
      have hs : sibIdx F2 { t with order := (sibIdx F t : Int) + 1 } = sibIdx F t :=
        sibIdx_congr h rfl rfl
      rw [hs, ih n]

theorem assignAux_ids (F : List Task) : ∀ (u : List Task) (n : Int),
    (assignAux F u n).map Task.id = u.map Task.id := by
  intro u
  induction u with
  | nil =>
    intro n
    rfl
  | cons t u ih =>
    intro n
    rw [assignAux]
    split
    · rw [List.map_cons, List.map_cons, ih]
    · rw [List.map_cons, List.map_cons, ih]

/-- C9: the order normalizer of part_000 - hierarchical rebuild followed by the order
reassignment - is idempotent on any collection with unique ids and no empty-string
parent pointers: applying it to an already normalized list reproduces the same
flattened sequence with the same order values. -/
theorem C9_normalize_idempotent (ts : List Task)
    (hn : (ts.map Task.id).Nodup) (h0 : ∀ t ∈ ts, t.parentId ≠ some "") :
    normalizeTasks (normalizeTasks ts) = normalizeTasks ts := by
  have hA : rebuildHier ts = flattenW ts ts := rebuildHier_eq ts hn h0
  have hAid : ((flattenW ts ts).map Task.id).Nodup :=
    nodup_flattenW ts hn ts (List.Sublist.refl _)
  have hGA : Grouped (flattenW ts ts) := grouped_flattenW ts hn ts (List.Sublist.refl _)
  have h1 : normalizeTasks ts = assignAux (flattenW ts ts) (flattenW ts ts) 1 := by
    rw [normalizeTasks, hA]
    rfl
  have hBskel : (assignAux (flattenW ts ts) (flattenW ts ts) 1).map skel
      = (flattenW ts ts).map skel := assignAux_skel _ _ _
  have hBid : ((assignAux (flattenW ts ts) (flattenW ts ts) 1).map Task.id).Nodup := by
    rw [assignAux_ids]
    exact hAid
  have hB0 : ∀ t ∈ assignAux (flattenW ts ts) (flattenW ts ts) 1,
      t.parentId ≠ some "" := by
    intro t ht
    rcases mem_assignAux _ _ _ ht with ⟨s, hs, _, hpar, _⟩
    have hsts : s ∈ ts := mem_all_of_mem_flattenW (List.Sublist.refl _) hs
    rw [hpar]
    exact h0 s hsts
  have hGB : Grouped (assignAux (flattenW ts ts) (flattenW ts ts) 1) :=
    grouped_of_skel hBskel hGA
  have hBflat : flattenW (assignAux (flattenW ts ts) (flattenW ts ts) 1)
      (assignAux (flattenW ts ts) (flattenW ts ts) 1)
      = assignAux (flattenW ts ts) (flattenW ts ts) 1 := flattenW_of_grouped hGB
  rw [h1, normalizeTasks, rebuildHier_eq _ hBid hB0, hBflat]
  exact assign_assign hBskel (flattenW ts ts) 1

/-- A mixed sample: out-of-order roots, out-of-order children, a dangling parent
pointer. -/
def normalizeSample : List Task :=
  [⟨"a", "A", Cat.personal, false, 5, none⟩,
   ⟨"b", "B", Cat.personal, false, 2, none⟩,
   ⟨"k1", "x", Cat.personal, false, 9, some "b"⟩,
   ⟨"k2", "y", Cat.personal, false, 1, some "b"⟩,
   ⟨"z", "Z", Cat.personal, false, 1, some "nope"⟩]

/-- Witness for C9 on the mixed sample. -/
theorem C9_normalize_idempotent_witness :
    ((normalizeSample.map Task.id).Nodup) ∧
    (∀ t ∈ normalizeSample, t.parentId ≠ some "") ∧
    normalizeTasks (normalizeTasks normalizeSample) = normalizeTasks normalizeSample :=
  ⟨by decide, by decide, C9_normalize_idempotent normalizeSample (by decide) (by decide)⟩

/-
-------------------------------------------------------------------------------
C10 - membership of the flattened render sequence
-------------------------------------------------------------------------------
-/

theorem mem_hier_blocks (tasks roots : List Task) (y : Task)
    (hroots : ∀ r, r ∈ roots ↔ r ∈ tasks ∧ truthy r.parentId = false) :
    (y ∈ roots.flatMap (fun root =>
        root :: List.insertionSort orderLE
          (tasks.filter (fun t => t.parentId == some root.id))) ↔
      y ∈ tasks ∧ (truthy y.parentId = false ∨
        ∃ r ∈ tasks, truthy r.parentId = false ∧ y.parentId = some r.id)) := by
  rw [List.mem_flatMap]
  constructor
  · rintro ⟨r, hr, hy⟩
    have hr2 := (hroots r).mp hr
    rcases List.mem_cons.mp hy with rfl | hy2
    · exact ⟨hr2.1, Or.inl hr2.2⟩
    · have hy3 : y ∈ tasks.filter (fun t => t.parentId == some r.id) :=
        (List.perm_insertionSort _ _).mem_iff.mp hy2
      have hy4 := List.mem_filter.mp hy3
      exact ⟨hy4.1, Or.inr ⟨r, hr2.1, hr2.2, by simpa using hy4.2⟩⟩
  · rintro ⟨hy, hroot | ⟨r, hrmem, hrroot, hpar⟩⟩
    · exact ⟨y, (hroots y).mpr ⟨hy, hroot⟩, List.mem_cons_self _ _⟩
    · refine ⟨r, (hroots r).mpr ⟨hrmem, hrroot⟩, List.mem_cons_of_mem _ ?_⟩
      exact (List.perm_insertionSort _ _).mem_iff.mpr
        (List.mem_filter.mpr ⟨hy, by simp [hpar]⟩)

/-- C10: the flattened render sequence - hierarchicalTasks of useTaskManager.js as well
as getTaskHierarchy of part_016 - contains exactly the root tasks and those tasks whose
parentId is the id of a present root task; a stored task whose parentId dangles or
points at a non-root task is silently omitted. Both derivations are pure reads, so the
stored collection itself is untouched. -/
theorem C10_hierarchy_membership (tasks : List Task) (y : Task) :
    (y ∈ hierarchicalTasks tasks ↔
      y ∈ tasks ∧ (truthy y.parentId = false ∨
        ∃ r ∈ tasks, truthy r.parentId = false ∧ y.parentId = some r.id)) ∧
    (y ∈ getTaskHierarchy tasks ↔
      y ∈ tasks ∧ (truthy y.parentId = false ∨
        ∃ r ∈ tasks, truthy r.parentId = false ∧ y.parentId = some r.id)) := by
  constructor
  · simp only [hierarchicalTasks]
    refine mem_hier_blocks tasks _ y (fun r => ?_)
    constructor
    · intro h
      have h2 := List.mem_filter.mp ((List.perm_insertionSort _ _).mem_iff.mp h)
      exact ⟨h2.1, by simpa using h2.2⟩
    · intro ⟨ha, hb⟩
      exact (List.perm_insertionSort _ _).mem_iff.mpr
        (List.mem_filter.mpr ⟨ha, by simpa using hb⟩)
  · simp only [getTaskHierarchy]
    refine mem_hier_blocks tasks _ y (fun r => ?_)
    constructor
    · intro h
      have h2 := List.mem_filter.mp h
      exact ⟨h2.1, by simpa using h2.2⟩
    · intro ⟨ha, hb⟩
      exact List.mem_filter.mpr ⟨ha, by simpa using hb⟩

end ParadiseFE
